import Mathlib

/-!
# openchirp_pubsub: the MQTT to Redis last-value bridge

A shallow embedding of the subscription callback of `run` in `main.go`
(lines 68-81) together with the library routines it calls.

Modelling conventions.

* A Go `string` that holds text (topic, key) is a `List Char`, one element per
  rune; MQTT topic names are valid UTF-8, so the byte-wise `strings.Replace`
  with one-byte ASCII arguments and the rune-wise `strings.ToLower` both act
  on this list, and every index below is a rune index.
* The payload is an uninterpreted byte sequence; `string(payload)` keeps the
  bytes, so stored values are byte lists.
* `strings.Index`, `strings.Count`, `strings.Replace`, `strings.Map`,
  `strings.ToLower` and `unicode.ToLower` follow the Go standard library.  The
  Unicode case table consulted by `unicode.ToLower` for runes above
  `MaxASCII` is not part of the repository and is a parameter `caseTable`.
* The Redis server and the logger are the environment: the world records the
  commands sent to the store, the store contents, the logger's level (set at
  main.go line 36 from the `log-level` flag) and the entries the logger
  emits, which are those at or below that level.  Whether a write fails is an
  input (`fault`).
-/

namespace OpenChirpPubsub

/-! ## Go strings and byte slices -/

/-- Text of a Go string, one element per rune. -/
abbrev GoString := List Char

/-- Contents of a Go byte slice, and of a Go string used only as bytes. -/
abbrev Bytes := List UInt8

/-- The conversion `string(payload)`: the bytes are kept as they are. -/
def bytesToString (payload : Bytes) : Bytes := payload

/-- The bytes of a string literal. -/
def utf8 (s : String) : Bytes := s.toUTF8.data.toList

/-! ## package time -/

/-- A `time.Duration`, counted in nanoseconds. -/
abbrev Duration := Int

def Nanosecond : Duration := 1
def Microsecond : Duration := 1000 * Nanosecond
def Millisecond : Duration := 1000 * Microsecond
def Second : Duration := 1000 * Millisecond
def Minute : Duration := 60 * Second
def Hour : Duration := 60 * Minute

/-- The variable `lastValueExpiration` of main.go, line 27. -/
def lastValueExpiration : Duration := Hour * (24 * 32 * 4)

/-! ## package strings -/

/-- Scan for `strings.Index`: `i` is the offset of the text still to search. -/
def indexFrom (substr : GoString) : GoString → Nat → Int
  | [], i => if substr.isPrefixOf [] then (i : Int) else -1
  | c :: cs, i =>
    if substr.isPrefixOf (c :: cs) then (i : Int) else indexFrom substr cs (i + 1)

/-- The function `strings.Index`: offset of the first instance of `substr` in
`s`, or `-1`. -/
def Index (s substr : GoString) : Int := indexFrom substr s 0

/-- Non-overlapping instances of `substr` from the current position; `skip`
characters of an instance just counted are still to be passed over. -/
def countScan (substr : GoString) : GoString → Nat → Nat
  | [], _ => 0
  | _ :: cs, skip + 1 => countScan substr cs skip
  | c :: cs, 0 =>
    if substr.isPrefixOf (c :: cs) then 1 + countScan substr cs (substr.length - 1)
    else countScan substr cs 0

/-- The function `strings.Count`: the number of non-overlapping instances of
`substr` in `s`; one more than the number of runes when `substr` is empty. -/
def Count (s substr : GoString) : Nat :=
  match substr with
  | [] => s.length + 1
  | [c] => s.count c
  | _ => countScan substr s 0

/-- The replacement loop of `strings.Replace`: `k` rounds remain, `i` is the
loop counter and `rest` is `s[start:]`. -/
def replaceLoop (old new : GoString) : Nat → Nat → GoString → GoString
  | 0, _, rest => rest
  | k + 1, i, rest =>
    let j : Nat :=
      if old.length = 0 then (if 0 < i then min 1 rest.length else 0)
      else (Index rest old).toNat
    rest.take j ++ new ++ replaceLoop old new k (i + 1) (rest.drop (j + old.length))

/-- The function `strings.Replace (s, old, new, n)`: the first `n`
non-overlapping instances of `old` replaced by `new`; all of them when
`n < 0`. -/
def Replace (s old new : GoString) (n : Int) : GoString :=
  if old = new ∨ n = 0 then s
  else
    let m : Int := (Count s old : Nat)
    if m = 0 then s
    else
      let n := if n < 0 ∨ m < n then m else n
      replaceLoop old new n.toNat 0 s

/-! ## package unicode -/

def MaxASCII : Nat := 0x7F

def RuneSelf : Nat := 0x80

/-- The function `unicode.ToLower`: ASCII is handled inline, every other rune
is looked up in the case table. -/
def unicodeToLower (caseTable : Char → Char) (r : Char) : Char :=
  if r.toNat ≤ MaxASCII then
    if 'A' ≤ r ∧ r ≤ 'Z' then Char.ofNat (r.toNat + ('a'.toNat - 'A'.toNat)) else r
  else caseTable r

/-- The function `strings.Map`: every rune is mapped; a rune whose image is
negative (`none`) is dropped. -/
def Map (mapping : Char → Option Char) (s : GoString) : GoString :=
  s.filterMap mapping

/-- The first loop of `strings.ToLower`: `(isASCII, hasUpper)`, the scan
stopping at the first byte that is not ASCII. -/
def scanASCII : GoString → Bool → Bool × Bool
  | [], hasUpper => (true, hasUpper)
  | c :: cs, hasUpper =>
    if RuneSelf ≤ c.toNat then (false, hasUpper)
    else scanASCII cs (hasUpper || (decide ('A' ≤ c) && decide (c ≤ 'Z')))

/-- One step of the ASCII loop of `strings.ToLower`. -/
def lowerByte (c : Char) : Char :=
  if 'A' ≤ c ∧ c ≤ 'Z' then Char.ofNat (c.toNat + ('a'.toNat - 'A'.toNat)) else c

/-- The function `strings.ToLower`. -/
def ToLower (caseTable : Char → Char) (s : GoString) : GoString :=
  let scan := scanASCII s false
  if scan.1 then
    if !scan.2 then s else s.map lowerByte
  else Map (fun r => some (unicodeToLower caseTable r)) s

/-! ## The store, the logger and the world -/

/-- A stored value with its absolute expiration deadline. -/
structure Entry where
  value : Bytes
  deadline : Int
  deriving DecidableEq, Repr

/-- The key space of the store: at most one entry per key. -/
abbrev Store := GoString → Option Entry

/-- A `SET key value` command with its expiration. -/
structure SetCall where
  key : GoString
  value : Bytes
  expiration : Duration
  deriving DecidableEq, Repr

/-- Result of `redisClient.Set(...).Result()`. -/
structure Reply where
  res : String
  err : Option String
  deriving DecidableEq, Repr

/-- The logrus levels. -/
inductive Level where
  | panic | fatal | error | warn | info | debug
  deriving DecidableEq, Repr

/-- The number of a level, as listed with the `log-level` flag: debug=5,
info=4, warning=3, error=2, fatal=1, panic=0. -/
def Level.toNat : Level → Nat
  | Level.panic => 0
  | Level.fatal => 1
  | Level.error => 2
  | Level.warn => 3
  | Level.info => 4
  | Level.debug => 5

/-- Line 36 of main.go: the level given to `log.SetLevel`, which is
`logrus.Level(uint32(ctx.Int("log-level")))`. -/
def configuredLevel (logLevelFlag : Int) : Nat := (logLevelFlag % 2 ^ 32).toNat

/-- An argument of a formatted log call. -/
inductive Arg where
  | text (s : GoString)
  | data (b : Bytes)
  | str (s : String)
  | err (e : Option String)
  deriving DecidableEq, Repr

/-- An entry emitted by the logger. -/
structure LogEntry where
  level : Level
  format : String
  args : List Arg
  deriving DecidableEq, Repr

/-- What the callback acts on: the store, the commands sent to it, the entries
the logger has emitted, whether the process has ended, and the logger's
level. -/
structure World where
  store : Store
  calls : List SetCall
  log : List LogEntry
  exited : Bool
  level : Nat

/-- A call `log.<Level>f(format, args...)`: the entry is emitted when the
logger's level is at least the level of the call and dropped otherwise;
`Fatalf` and `Panicf` end the process. -/
def logf (w : World) (level : Level) (format : String) (args : List Arg) : World :=
  { w with
    log := if level.toNat ≤ w.level then w.log ++ [⟨level, format, args⟩] else w.log
    exited := w.exited || decide (level = Level.fatal) || decide (level = Level.panic) }

/-- The call `redisClient.Set(key, value, expiration).Result()` at store time
`now`.  With no fault the entry at `key` is replaced and expires at
`now + expiration`; with a fault the store is left as it was and the error is
returned. -/
def redisSet (w : World) (now : Int) (fault : Option String)
    (key : GoString) (value : Bytes) (expiration : Duration) : World × Reply :=
  let w := { w with calls := w.calls ++ [⟨key, value, expiration⟩] }
  match fault with
  | none =>
    ({ w with store := fun k => if k = key then some ⟨value, now + expiration⟩ else w.store k },
      ⟨"OK", none⟩)
  | some e => (w, ⟨"", some e⟩)

/-! ## main.go -/

/-- Lines 72-74 of main.go: the key the callback derives from the topic. -/
def deriveKey (caseTable : Char → Char) (topic : GoString) : GoString :=
  let key := Replace topic "/".toList ":".toList 3
  let key := Replace key " ".toList "_".toList 3
  let key := ToLower caseTable key
  key

/-- The callback passed to `mqttClient.Subscribe` (main.go, lines 68-81). -/
def handler (caseTable : Char → Char) (w : World) (now : Int) (fault : Option String)
    (topic : GoString) (payload : Bytes) : World :=
  let w := logf w Level.debug "MQTT Message: %s = %s"
    [Arg.text topic, Arg.data (bytesToString payload)]
  let key := Replace topic "/".toList ":".toList 3
  let key := Replace key " ".toList "_".toList 3
  let key := ToLower caseTable key
  let value := bytesToString payload
  let (w, reply) := redisSet w now fault key value lastValueExpiration
  if reply.err ≠ none then
    logf w Level.error "Failed to set %s with %s: response=%v | err=%v"
      [Arg.text key, Arg.data value, Arg.str reply.res, Arg.err reply.err]
  else w

/-- The world at startup with the given `log-level` flag: an empty store and
nothing logged. -/
def World.start (logLevelFlag : Int) : World :=
  ⟨fun _ => none, [], [], false, configuredLevel logLevelFlag⟩

/-- The world at startup with the default `log-level` of 4 (main.go, line
135). -/
def World.init : World := World.start 4

/-- The topic filter of the subscription (main.go, line 68). -/
def subscriptionFilter : GoString := "openchirp/device/+/+".toList

/-- The levels of a topic or of a filter: the pieces between the "/". -/
def splitLevels : GoString → List GoString
  | [] => [[]]
  | c :: cs =>
    match splitLevels cs with
    | [] => [[c]]
    | l :: ls => if c = '/' then [] :: l :: ls else (c :: l) :: ls

/-- MQTT filter matching as the broker and the client library apply it, level
by level: "+" stands for exactly one level and "#" for all the remaining
ones. -/
def matchLevels : List GoString → List GoString → Bool
  | [], topic => topic.isEmpty
  | r :: _, [] => decide (r = "#".toList)
  | r :: rs, t :: ts =>
    if r = "#".toList then true
    else if r = "+".toList ∨ r = t then matchLevels rs ts
    else false

/-- Whether the broker delivers a message on `topic` to a subscription with
filter `filter`. -/
def topicMatches (filter topic : GoString) : Bool :=
  matchLevels (splitLevels filter) (splitLevels topic)

/-- A topic of the form "openchirp/device/" ++ d ++ "/" ++ t in which neither
`d` nor `t` contains "/". -/
def SubscribedForm (topic : GoString) : Prop :=
  ∃ d t : GoString, '/' ∉ d ∧ '/' ∉ t ∧
    topic = "openchirp/device/".toList ++ d ++ '/' :: t

/-- An excerpt of the Unicode case table: the Latin-1 capitals are lowered and
every other rune is left as it is.  That is what Go's table does on all of
Latin-1 and on U+2102 (a capital with no lowercase form); capitals of other
scripts are not covered. -/
def latin1Table (c : Char) : Char :=
  if 0xC0 ≤ c.toNat ∧ c.toNat ≤ 0xDE ∧ c.toNat ≠ 0xD7 then Char.ofNat (c.toNat + 32) else c

/-- The error entries of a log. -/
def errorEntries (log : List LogEntry) : List LogEntry :=
  log.filter (fun l => decide (l.level = Level.error))

/-! ## The key in the words of the specification

These three definitions follow the text of the specification, not the code;
the code is compared with them below. -/

/-- The text `s` with its leftmost `n` occurrences of `a` (all of them when
there are fewer) replaced by `b`. -/
def replaceLeftmost (a b : Char) : Nat → GoString → GoString
  | 0, s => s
  | _ + 1, [] => []
  | n + 1, c :: cs =>
    if c = a then b :: replaceLeftmost a b n cs else c :: replaceLeftmost a b (n + 1) cs

/-- Every character lowercased. -/
def lowerAll (caseTable : Char → Char) (s : GoString) : GoString :=
  s.map (unicodeToLower caseTable)

/-- The storage key as the specification words it: separators first, then
spaces, then lowercase. -/
def specKey (caseTable : Char → Char) (topic : GoString) : GoString :=
  let r1 := replaceLeftmost '/' ':' 3 topic
  let r2 := replaceLeftmost ' ' '_' 3 r1
  lowerAll caseTable r2

/-! ## strings.Replace with one-character arguments -/

theorem replaceLeftmost_zero (a b : Char) (s : GoString) : replaceLeftmost a b 0 s = s := by
  cases s <;> rfl

theorem replaceLeftmost_nil (a b : Char) (n : Nat) : replaceLeftmost a b n [] = [] := by
  cases n <;> rfl

theorem replaceLeftmost_not_mem (a b : Char) (n : Nat) (s : GoString) (h : a ∉ s) :
    replaceLeftmost a b n s = s := by
  induction s generalizing n with
  | nil => exact replaceLeftmost_nil a b n
  | cons c cs ih =>
    cases n with
    | zero => rfl
    | succ n =>
      have hc : c ≠ a := fun e => h (by simp [e])
      have hcs : a ∉ cs := fun e => h (List.mem_cons_of_mem _ e)
      simp [replaceLeftmost, hc, ih (n + 1) hcs]

theorem replaceLeftmost_split (a b : Char) (n : Nat) (pre post : GoString) (h : a ∉ pre) :
    replaceLeftmost a b (n + 1) (pre ++ a :: post) = pre ++ b :: replaceLeftmost a b n post := by
  induction pre with
  | nil => simp [replaceLeftmost]
  | cons c cs ih =>
    have hc : c ≠ a := fun e => h (by simp [e])
    have hcs : a ∉ cs := fun e => h (List.mem_cons_of_mem _ e)
    simp [replaceLeftmost, hc, ih hcs]

theorem replaceLeftmost_min_count (a b : Char) (n : Nat) (s : GoString) :
    replaceLeftmost a b (min n (s.count a)) s = replaceLeftmost a b n s := by
  induction s generalizing n with
  | nil => simp [replaceLeftmost_nil]
  | cons c cs ih =>
    cases n with
    | zero => simp [replaceLeftmost]
    | succ n =>
      by_cases hc : c = a
      · subst hc
        have : min (n + 1) (List.count c (c :: cs)) = min n (cs.count c) + 1 := by
          simp only [List.count_cons, beq_self_eq_true, if_true]
          omega
        rw [this]
        simp [replaceLeftmost, ih n]
      · have hca : (c == a) = false := by simpa using hc
        have : List.count a (c :: cs) = cs.count a := by simp [List.count_cons, hca]
        rw [this]
        by_cases hz : cs.count a = 0
        · have hmem : a ∉ cs := List.count_eq_zero.mp hz
          have hmem2 : a ∉ c :: cs := by
            intro e
            rcases List.mem_cons.mp e with e | e
            · exact hc e.symm
            · exact hmem e
          rw [replaceLeftmost_not_mem a b _ _ hmem2, replaceLeftmost_not_mem a b _ _ hmem2]
        · obtain ⟨m, hm⟩ : ∃ m, min (n + 1) (cs.count a) = m + 1 :=
            ⟨min (n + 1) (cs.count a) - 1, by omega⟩
          have h1 := ih (n + 1)
          rw [hm] at h1 ⊢
          simp [replaceLeftmost, hc, h1]

theorem indexFrom_single (a : Char) (s : GoString) (i : Nat) (h : a ∈ s) :
    ∃ pre post, s = pre ++ a :: post ∧ a ∉ pre ∧
      indexFrom [a] s i = ((i + pre.length : Nat) : Int) := by
  induction s generalizing i with
  | nil => simp at h
  | cons c cs ih =>
    by_cases hc : a = c
    · subst hc
      exact ⟨[], cs, by simp, by simp, by simp [indexFrom, List.isPrefixOf]⟩
    · have hcs : a ∈ cs := by
        rcases List.mem_cons.mp h with e | e
        · exact absurd e hc
        · exact e
      obtain ⟨pre, post, hs, hpre, hidx⟩ := ih (i + 1) hcs
      refine ⟨c :: pre, post, by simp [hs], ?_, ?_⟩
      · intro e
        rcases List.mem_cons.mp e with e | e
        · exact hc e
        · exact hpre e
      · simp [indexFrom, List.isPrefixOf, hc, hidx]
        omega

theorem replaceLoop_single (a b : Char) (k i : Nat) (s : GoString) (h : k ≤ s.count a) :
    replaceLoop [a] [b] k i s = replaceLeftmost a b k s := by
  induction k generalizing i s with
  | zero => simp [replaceLoop, replaceLeftmost]
  | succ k ih =>
    have hmem : a ∈ s := by
      apply List.count_pos_iff.mp
      omega
    obtain ⟨pre, post, hs, hpre, hidx⟩ := indexFrom_single a s 0 hmem
    have hcount : s.count a = post.count a + 1 := by
      rw [hs, List.count_append, List.count_eq_zero.mpr hpre]
      simp
    have hk : k ≤ post.count a := by omega
    have hsplit := replaceLeftmost_split a b k pre post hpre
    rw [← hs] at hsplit
    rw [hsplit]
    simp only [replaceLoop, Index, hidx]
    simp [hs, ih (i + 1) post hk]

theorem Replace_single (a b : Char) (hab : a ≠ b) (n : Nat) (s : GoString) :
    Replace s [a] [b] (n : Int) = replaceLeftmost a b n s := by
  unfold Replace
  by_cases hn : n = 0
  · subst hn
    simp [replaceLeftmost]
  · have h1 : ¬ ([a] = [b] ∨ (n : Int) = 0) := by
      simp [hab]
      exact_mod_cast hn
    rw [if_neg h1]
    simp only [Count]
    by_cases hm : s.count a = 0
    · have : ((s.count a : Nat) : Int) = 0 := by exact_mod_cast hm
      rw [if_pos this]
      exact (replaceLeftmost_not_mem a b n s (List.count_eq_zero.mp hm)).symm
    · have : ¬ ((s.count a : Nat) : Int) = 0 := by exact_mod_cast hm
      rw [if_neg this]
      have hsel : (if (n : Int) < 0 ∨ ((s.count a : Nat) : Int) < (n : Int)
          then ((s.count a : Nat) : Int) else (n : Int)).toNat = min n (s.count a) := by
        split_ifs with hlt
        · rcases hlt with hlt | hlt
          · omega
          · simp; omega
        · simp; omega
      rw [hsel, replaceLoop_single a b _ 0 s (Nat.min_le_right _ _)]
      exact replaceLeftmost_min_count a b n s

/-! ## strings.ToLower -/

theorem char_le_iff_toNat (a b : Char) : a ≤ b ↔ a.toNat ≤ b.toNat := by
  rw [Char.le_def]; exact Iff.rfl

theorem toNat_ofNat_small (n : Nat) (h : n < 0xd800) : (Char.ofNat n).toNat = n := by
  have hv : n.isValidChar := Or.inl h
  unfold Char.ofNat
  rw [dif_pos hv]
  rfl

theorem char_eq_of_toNat {a b : Char} (h : a.toNat = b.toNat) : a = b := by
  rw [← Char.ofNat_toNat a, ← Char.ofNat_toNat b, h]

theorem scanASCII_ascii (s : GoString) (u : Bool) (h : (scanASCII s u).1 = true) :
    ∀ c ∈ s, c.toNat ≤ MaxASCII := by
  induction s generalizing u with
  | nil => simp
  | cons c cs ih =>
    unfold scanASCII at h
    by_cases hc : RuneSelf ≤ c.toNat
    · simp [hc] at h
    · rw [if_neg hc] at h
      intro x hx
      rcases List.mem_cons.mp hx with e | e
      · subst e
        simp only [RuneSelf, MaxASCII] at hc ⊢
        omega
      · exact ih _ h x e

theorem scanASCII_upper (s : GoString) (u : Bool) (h : (scanASCII s u).1 = true)
    (h2 : (scanASCII s u).2 = false) : u = false ∧ ∀ c ∈ s, ¬ ('A' ≤ c ∧ c ≤ 'Z') := by
  induction s generalizing u with
  | nil =>
    simp [scanASCII] at h2
    simp [h2]
  | cons c cs ih =>
    unfold scanASCII at h h2
    by_cases hc : RuneSelf ≤ c.toNat
    · simp [hc] at h
    · rw [if_neg hc] at h h2
      obtain ⟨hu, hcs⟩ := ih _ h h2
      simp only [Bool.or_eq_false_iff, Bool.and_eq_false_imp, decide_eq_true_eq,
        decide_eq_false_iff_not] at hu
      refine ⟨hu.1, ?_⟩
      intro x hx
      rcases List.mem_cons.mp hx with e | e
      · subst e
        intro hx2
        exact hu.2 hx2.1 hx2.2
      · exact hcs x e

theorem unicodeToLower_ascii (caseTable : Char → Char) (c : Char) (h : c.toNat ≤ MaxASCII) :
    unicodeToLower caseTable c = lowerByte c := by
  simp [unicodeToLower, lowerByte, h]

theorem ToLower_eq_map (caseTable : Char → Char) (s : GoString) :
    ToLower caseTable s = s.map (unicodeToLower caseTable) := by
  unfold ToLower
  by_cases h1 : (scanASCII s false).1 = true
  · have hascii := scanASCII_ascii s false h1
    have hmap : s.map (unicodeToLower caseTable) = s.map lowerByte :=
      List.map_congr_left (fun c hc => unicodeToLower_ascii caseTable c (hascii c hc))
    simp only [h1, if_true]
    by_cases h2 : (scanASCII s false).2 = true
    · simp [h2, hmap]
    · have h2f : (scanASCII s false).2 = false := by simpa using h2
      have hup := (scanASCII_upper s false h1 h2f).2
      simp only [h2f, Bool.not_false, if_true]
      rw [hmap]
      symm
      have : s.map lowerByte = s.map id :=
        List.map_congr_left (fun c hc => by simp [lowerByte, hup c hc])
      simpa using this
  · simp only [h1]
    have := congrFun (List.filterMap_eq_map (unicodeToLower caseTable)) s
    simpa [Map, Function.comp_def] using this

/-! ## The derived key and the callback -/

theorem deriveKey_eq (caseTable : Char → Char) (topic : GoString) :
    deriveKey caseTable topic =
      lowerAll caseTable (replaceLeftmost ' ' '_' 3 (replaceLeftmost '/' ':' 3 topic)) := by
  have h1 := Replace_single '/' ':' (by decide) 3 topic
  have h2 := Replace_single ' ' '_' (by decide) 3 (replaceLeftmost '/' ':' 3 topic)
  simp only [Nat.cast_ofNat] at h1 h2
  show ToLower caseTable (Replace (Replace topic ['/'] [':'] 3) [' '] ['_'] 3) = _
  rw [h1, h2, ToLower_eq_map]
  rfl

theorem handler_calls (caseTable : Char → Char) (w : World) (now : Int)
    (fault : Option String) (topic : GoString) (payload : Bytes) :
    (handler caseTable w now fault topic payload).calls =
      w.calls ++ [⟨deriveKey caseTable topic, payload, lastValueExpiration⟩] := by
  cases fault <;> rfl

theorem handler_store_ok (caseTable : Char → Char) (w : World) (now : Int)
    (topic : GoString) (payload : Bytes) :
    (handler caseTable w now none topic payload).store =
      fun k => if k = deriveKey caseTable topic
        then some ⟨payload, now + lastValueExpiration⟩ else w.store k := rfl

theorem handler_store_at (caseTable : Char → Char) (w : World) (now : Int)
    (topic : GoString) (payload : Bytes) (k : GoString) (hk : k = deriveKey caseTable topic) :
    (handler caseTable w now none topic payload).store k =
      some ⟨payload, now + lastValueExpiration⟩ := by
  rw [handler_store_ok]
  exact if_pos hk

theorem handler_log (caseTable : Char → Char) (w : World) (now : Int)
    (fault : Option String) (topic : GoString) (payload : Bytes) :
    (handler caseTable w now fault topic payload).log =
      w.log
      ++ (if Level.debug.toNat ≤ w.level then
            [⟨Level.debug, "MQTT Message: %s = %s", [Arg.text topic, Arg.data payload]⟩]
          else [])
      ++ (match fault with
          | none => []
          | some e =>
            if Level.error.toNat ≤ w.level then
              [⟨Level.error, "Failed to set %s with %s: response=%v | err=%v",
                [Arg.text (deriveKey caseTable topic), Arg.data payload, Arg.str "",
                  Arg.err (some e)]⟩]
            else []) := by
  cases fault with
  | none =>
    by_cases h5 : Level.debug.toNat ≤ w.level <;>
      simp [handler, redisSet, logf, bytesToString, h5]
  | some e =>
    by_cases h5 : Level.debug.toNat ≤ w.level <;>
      by_cases h2 : Level.error.toNat ≤ w.level <;>
        simp [handler, redisSet, logf, deriveKey, bytesToString, h5, h2]

theorem handler_exited (caseTable : Char → Char) (w : World) (now : Int)
    (fault : Option String) (topic : GoString) (payload : Bytes) :
    (handler caseTable w now fault topic payload).exited = w.exited := by
  cases fault <;> simp [handler, redisSet, logf]

/-! ## Claims about single events -/

/-- C1: for every topic, the store command the callback issues has as key the
lowercased result of replacing the leftmost three "/" by ":" and then the
leftmost three " " by "_", as value the payload bytes, and the fixed
expiration; topic "openchirp/device/abc123/temperature" with payload "72.5"
gives key "openchirp:device:abc123:temperature" and stored value "72.5". -/
theorem storage_key_is_lower_of_bounded_replacements (caseTable : Char → Char) (w : World)
    (now : Int) (fault : Option String) (topic : GoString) (payload : Bytes) :
    (handler caseTable w now fault topic payload).calls =
        w.calls ++ [⟨specKey caseTable topic, payload, lastValueExpiration⟩]
    ∧ (handler caseTable w now fault
          "openchirp/device/abc123/temperature".toList (utf8 "72.5")).calls =
        w.calls ++ [⟨"openchirp:device:abc123:temperature".toList, utf8 "72.5",
          lastValueExpiration⟩]
    ∧ (handler caseTable w now none
          "openchirp/device/abc123/temperature".toList (utf8 "72.5")).store
          "openchirp:device:abc123:temperature".toList =
        some ⟨utf8 "72.5", now + lastValueExpiration⟩ := by
  refine ⟨?_, ?_, ?_⟩
  · rw [handler_calls, deriveKey_eq]
    rfl
  · rw [handler_calls]
    rfl
  · exact handler_store_at caseTable w now _ _ _ rfl

/-- C2 as stated fails: for topic "OpenChirp/Device/XYZ 001/Battery Level" and
payload "low" the command issued is not the one with key
"openchirp:device:xyz_001:battery level". -/
theorem battery_level_key_keeps_no_space :
    (handler latin1Table World.init 0 none
        "OpenChirp/Device/XYZ 001/Battery Level".toList (utf8 "low")).calls ≠
      [⟨"openchirp:device:xyz_001:battery level".toList, utf8 "low",
        lastValueExpiration⟩] := by
  decide

/-- C2, amended: topic "OpenChirp/Device/XYZ 001/Battery Level" has only two
spaces, both among the first three, so the key is
"openchirp:device:xyz_001:battery_level"; the value written for payload "low"
is "low". -/
theorem battery_level_key (caseTable : Char → Char) (w : World) (now : Int)
    (fault : Option String) :
    (handler caseTable w now fault
        "OpenChirp/Device/XYZ 001/Battery Level".toList (utf8 "low")).calls =
      w.calls ++ [⟨"openchirp:device:xyz_001:battery_level".toList, utf8 "low",
        lastValueExpiration⟩]
    ∧ (handler caseTable w now none
          "OpenChirp/Device/XYZ 001/Battery Level".toList (utf8 "low")).store
          "openchirp:device:xyz_001:battery_level".toList =
        some ⟨utf8 "low", now + lastValueExpiration⟩ := by
  have hk : deriveKey caseTable "OpenChirp/Device/XYZ 001/Battery Level".toList =
      "openchirp:device:xyz_001:battery_level".toList := rfl
  refine ⟨?_, ?_⟩
  · rw [handler_calls, hk]
  · exact handler_store_at caseTable w now _ _ _ hk.symm

/-- C3 as stated fails: the expiration passed to the store is not 2,944
hours. -/
theorem lastValueExpiration_ne_2944_hours : lastValueExpiration ≠ 2944 * Hour := by
  decide

/-- C3, amended: the expiration passed to every store write is 3,072 hours
(24 * 32 * 4, i.e. 128 days), it fits an int64 nanosecond count, and a value
written at instant `now` expires at `now` plus 3,072 hours. -/
theorem lastValueExpiration_is_3072_hours (caseTable : Char → Char) (w : World) (now : Int)
    (fault : Option String) (topic : GoString) (payload : Bytes) :
    lastValueExpiration = 3072 * Hour
    ∧ lastValueExpiration < 2 ^ 63
    ∧ (∀ c ∈ (handler caseTable w now fault topic payload).calls,
        c ∈ w.calls ∨ c.expiration = 3072 * Hour)
    ∧ (handler caseTable w now none topic payload).store (deriveKey caseTable topic) =
        some ⟨payload, now + 3072 * Hour⟩ := by
  have h : lastValueExpiration = 3072 * Hour := by decide
  refine ⟨h, by decide, ?_, ?_⟩
  · intro c hc
    rw [handler_calls] at hc
    rcases List.mem_append.mp hc with hc | hc
    · exact Or.inl hc
    · right
      rw [List.mem_singleton.mp hc]
      exact h
  · rw [handler_store_ok, ← h]
    simp

/-- C6: for every store state, topic and payloads A and B, after the event
(T, A) and then the event (T, B), both writes succeeding, the entry at the key
derived from T is exactly the bytes of B with the deadline of the second
write, so nothing of A is kept under that key. -/
theorem last_write_wins (caseTable : Char → Char) (w : World) (t1 t2 : Int)
    (topic : GoString) (a b : Bytes) :
    (handler caseTable (handler caseTable w t1 none topic a) t2 none topic b).store
        (deriveKey caseTable topic) =
      some ⟨b, t2 + lastValueExpiration⟩ :=
  handler_store_at caseTable _ t2 topic b _ rfl

/-- C7: for every store state, topic and payload, handling the same event at
instants t1 ≤ t2 (both writes succeeding) leaves exactly one entry at the
derived key, with the value it had after the first write and the deadline
t2 + lastValueExpiration, which is not earlier than the first deadline; every
other key is as after the first write. -/
theorem rewrite_is_idempotent (caseTable : Char → Char) (w : World) (t1 t2 : Int)
    (topic : GoString) (payload : Bytes) (h : t1 ≤ t2) :
    let w1 := handler caseTable w t1 none topic payload
    let w2 := handler caseTable w1 t2 none topic payload
    let key := deriveKey caseTable topic
    (∃! e, w2.store key = some e)
    ∧ w2.store key = some ⟨payload, t2 + lastValueExpiration⟩
    ∧ w1.store key = some ⟨payload, t1 + lastValueExpiration⟩
    ∧ (w2.store key).map Entry.value = (w1.store key).map Entry.value
    ∧ (∀ e1 e2, w1.store key = some e1 → w2.store key = some e2 → e1.deadline ≤ e2.deadline)
    ∧ ∀ k, k ≠ key → w2.store k = w1.store k := by
  intro w1 w2 key
  have h2 : w2.store key = some ⟨payload, t2 + lastValueExpiration⟩ := by
    show (handler caseTable w1 t2 none topic payload).store (deriveKey caseTable topic) = _
    rw [handler_store_ok]
    simp
  have h1 : w1.store key = some ⟨payload, t1 + lastValueExpiration⟩ := by
    show (handler caseTable w t1 none topic payload).store (deriveKey caseTable topic) = _
    rw [handler_store_ok]
    simp
  refine ⟨⟨_, h2, ?_⟩, h2, h1, ?_, ?_, ?_⟩
  · intro e he
    rw [h2] at he
    exact (Option.some.inj he).symm
  · rw [h1, h2]
    rfl
  · intro e1 e2 he1 he2
    rw [h1] at he1
    rw [h2] at he2
    rw [← Option.some.inj he1, ← Option.some.inj he2]
    show t1 + lastValueExpiration ≤ t2 + lastValueExpiration
    omega
  · intro k hk
    show (handler caseTable w1 t2 none topic payload).store k = _
    rw [handler_store_ok]
    simp only [key] at hk
    simp [hk]

/-- C7 at a concrete input: the event ("openchirp/device/abc123/temperature",
"72.5") handled at instants 10 and 20 on the empty store. -/
theorem rewrite_is_idempotent_example :
    (10 : Int) ≤ 20
    ∧ (handler latin1Table
          (handler latin1Table World.init 10 none
            "openchirp/device/abc123/temperature".toList (utf8 "72.5"))
          20 none "openchirp/device/abc123/temperature".toList (utf8 "72.5")).store
          "openchirp:device:abc123:temperature".toList =
        some ⟨utf8 "72.5", 20 + lastValueExpiration⟩ :=
  ⟨by decide,
    (rewrite_is_idempotent latin1Table World.init 10 20
      "openchirp/device/abc123/temperature".toList (utf8 "72.5") (by decide)).2.1⟩

/-- C8 as stated fails: with the logger at level fatal (`log-level` 1) a
failed write on the topic "openchirp/device/abc123/temperature" sends its one
command to the store and no error entry is emitted. -/
theorem failed_write_not_logged_at_level_fatal :
    (handler latin1Table (World.start 1) 0 (some "connection refused")
        "openchirp/device/abc123/temperature".toList (utf8 "72.5")).calls =
      [⟨"openchirp:device:abc123:temperature".toList, utf8 "72.5", lastValueExpiration⟩]
    ∧ (handler latin1Table (World.start 1) 0 (some "connection refused")
        "openchirp/device/abc123/temperature".toList (utf8 "72.5")).log = [] := by
  decide

/-- C8, amended: for every event the callback sends exactly one set command to
the store, carrying the derived key, the payload and the fixed expiration, and
returns without ending the process, whether the attempt fails or not; when the
attempt fails and the logger's level is at least error (2) exactly one error
entry is emitted, carrying the derived key, the payload, the response and the
error; when it fails and the level is below error nothing is emitted; when the
attempt succeeds no error entry is emitted.  The last conjunct gives the whole
log. -/
theorem one_attempt_one_error_entry (caseTable : Char → Char) (w : World) (now : Int)
    (topic : GoString) (payload : Bytes) :
    (∀ fault, (handler caseTable w now fault topic payload).calls =
        w.calls ++ [⟨deriveKey caseTable topic, payload, lastValueExpiration⟩])
    ∧ (∀ fault, (handler caseTable w now fault topic payload).exited = w.exited)
    ∧ (∀ e, Level.error.toNat ≤ w.level →
        errorEntries (handler caseTable w now (some e) topic payload).log =
          errorEntries w.log ++
            [⟨Level.error, "Failed to set %s with %s: response=%v | err=%v",
              [Arg.text (deriveKey caseTable topic), Arg.data payload, Arg.str "",
                Arg.err (some e)]⟩])
    ∧ (∀ e, w.level < Level.error.toNat →
        (handler caseTable w now (some e) topic payload).log = w.log)
    ∧ errorEntries (handler caseTable w now none topic payload).log = errorEntries w.log
    ∧ (∀ fault, (handler caseTable w now fault topic payload).log =
        w.log
        ++ (if Level.debug.toNat ≤ w.level then
              [⟨Level.debug, "MQTT Message: %s = %s", [Arg.text topic, Arg.data payload]⟩]
            else [])
        ++ (match fault with
            | none => []
            | some e =>
              if Level.error.toNat ≤ w.level then
                [⟨Level.error, "Failed to set %s with %s: response=%v | err=%v",
                  [Arg.text (deriveKey caseTable topic), Arg.data payload, Arg.str "",
                    Arg.err (some e)]⟩]
              else [])) := by
  refine ⟨fun fault => handler_calls _ _ _ _ _ _, fun fault => handler_exited _ _ _ _ _ _,
    ?_, ?_, ?_, fun fault => handler_log _ _ _ _ _ _⟩
  · intro e h2
    rw [handler_log]
    by_cases h5 : Level.debug.toNat ≤ w.level <;>
      simp [errorEntries, List.filter_append, List.filter_cons, h5, h2]
  · intro e h2
    have h2n : ¬ Level.error.toNat ≤ w.level := by omega
    have h5n : ¬ Level.debug.toNat ≤ w.level := by
      simp only [Level.toNat] at h2 ⊢
      omega
    rw [handler_log]
    simp [h2n, h5n]
  · rw [handler_log]
    by_cases h5 : Level.debug.toNat ≤ w.level <;>
      simp [errorEntries, List.filter_append, List.filter_cons, h5]

/-- C8 at a concrete input: with the default `log-level` of 4 a failed write
on the topic "openchirp/device/abc123/temperature" emits exactly the one error
entry. -/
theorem one_attempt_one_error_entry_example :
    Level.error.toNat ≤ World.init.level
    ∧ (handler latin1Table World.init 0 (some "connection refused")
        "openchirp/device/abc123/temperature".toList (utf8 "72.5")).log =
      [⟨Level.error, "Failed to set %s with %s: response=%v | err=%v",
        [Arg.text "openchirp:device:abc123:temperature".toList, Arg.data (utf8 "72.5"),
          Arg.str "", Arg.err (some "connection refused")]⟩] :=
  ⟨by decide,
    (one_attempt_one_error_entry latin1Table World.init 0
      "openchirp/device/abc123/temperature".toList (utf8 "72.5")).2.2.2.2.2
      (some "connection refused")⟩

/-! ## Positions -/

theorem replaceLeftmost_length (a b : Char) (n : Nat) (s : GoString) :
    (replaceLeftmost a b n s).length = s.length := by
  induction s generalizing n with
  | nil => rw [replaceLeftmost_nil]
  | cons c cs ih =>
    cases n with
    | zero => rfl
    | succ n =>
      by_cases hc : c = a
      · simp [replaceLeftmost, hc, ih n]
      · simp [replaceLeftmost, hc, ih (n + 1)]

theorem replaceLeftmost_getElem? (a b : Char) (n : Nat) (s : GoString) (i : Nat) (c : Char)
    (h : s[i]? = some c) :
    (replaceLeftmost a b n s)[i]? =
      some (if c = a ∧ (s.take i).count a < n then b else c) := by
  induction s generalizing n i with
  | nil => simp at h
  | cons x xs ih =>
    cases n with
    | zero => simp [replaceLeftmost, h]
    | succ n =>
      cases i with
      | zero =>
        simp only [List.getElem?_cons_zero, Option.some.injEq] at h
        subst h
        by_cases hx : x = a
        · simp [replaceLeftmost, hx]
        · simp [replaceLeftmost, hx]
      | succ j =>
        simp only [List.getElem?_cons_succ] at h
        by_cases hx : x = a
        · subst hx
          simp [replaceLeftmost, ih n j h, List.count_cons]
        · have hxa : (x == a) = false := by simpa using hx
          simp [replaceLeftmost, hx, ih (n + 1) j h, List.count_cons, hxa]

theorem replaceLeftmost_take (a b : Char) (n : Nat) (s : GoString) (i : Nat) :
    (replaceLeftmost a b n s).take i = replaceLeftmost a b n (s.take i) := by
  induction s generalizing n i with
  | nil => simp [replaceLeftmost_nil]
  | cons x xs ih =>
    cases n with
    | zero => simp [replaceLeftmost]
    | succ n =>
      cases i with
      | zero => simp [replaceLeftmost]
      | succ j =>
        by_cases hx : x = a
        · simp [replaceLeftmost, hx, ih n j]
        · simp [replaceLeftmost, hx, ih (n + 1) j]

theorem replaceLeftmost_count_other (a b c : Char) (hca : c ≠ a) (hcb : c ≠ b) (n : Nat)
    (s : GoString) : (replaceLeftmost a b n s).count c = s.count c := by
  induction s generalizing n with
  | nil => rw [replaceLeftmost_nil]
  | cons x xs ih =>
    cases n with
    | zero => rfl
    | succ n =>
      by_cases hx : x = a
      · subst hx
        have h1 : (b == c) = false := by simpa using Ne.symm hcb
        have h2 : (x == c) = false := by simpa using Ne.symm hca
        simp [replaceLeftmost, List.count_cons, h1, h2, ih n]
      · simp [replaceLeftmost, hx, List.count_cons, ih (n + 1)]

theorem unicodeToLower_fixed (caseTable : Char → Char) (c : Char) (h : c.toNat ≤ MaxASCII)
    (hu : ¬ ('A' ≤ c ∧ c ≤ 'Z')) : unicodeToLower caseTable c = c := by
  simp [unicodeToLower, h, hu]

/-- C4: for every topic and position, a "/" preceded by at least three "/" is
still "/" at that position of the key and one preceded by fewer is ":"; a " "
preceded by at least three " " is still " " and one preceded by fewer is "_";
the key has as many characters as the topic. -/
theorem only_first_three_replaced (caseTable : Char → Char) (topic : GoString) (i : Nat) :
    (deriveKey caseTable topic).length = topic.length
    ∧ (topic[i]? = some '/' → (deriveKey caseTable topic)[i]? =
        some (if (topic.take i).count '/' < 3 then ':' else '/'))
    ∧ (topic[i]? = some ' ' → (deriveKey caseTable topic)[i]? =
        some (if (topic.take i).count ' ' < 3 then '_' else ' ')) := by
  rw [deriveKey_eq]
  refine ⟨?_, ?_, ?_⟩
  · simp [lowerAll, replaceLeftmost_length]
  · intro h
    have h1 := replaceLeftmost_getElem? '/' ':' 3 topic i '/' h
    have h2 := replaceLeftmost_getElem? ' ' '_' 3 _ i _ h1
    simp only [lowerAll, List.getElem?_map, h2]
    by_cases hc : (topic.take i).count '/' < 3
    · simp only [hc, and_true, if_true]
      rfl
    · simp only [hc, and_false, if_false]
      rfl
  · intro h
    have h1 := replaceLeftmost_getElem? '/' ':' 3 topic i ' ' h
    have hne : ¬ ((' ' : Char) = '/' ∧ (topic.take i).count '/' < 3) := by
      intro hh
      exact absurd hh.1 (by decide)
    rw [if_neg hne] at h1
    have h2 := replaceLeftmost_getElem? ' ' '_' 3 _ i _ h1
    rw [replaceLeftmost_take, replaceLeftmost_count_other '/' ':' ' ' (by decide) (by decide)]
      at h2
    simp only [lowerAll, List.getElem?_map, h2]
    by_cases hc : (topic.take i).count ' ' < 3
    · simp only [hc, and_true, if_true]
      rfl
    · simp only [hc, and_false, if_false]
      rfl

/-- C4 at a concrete input: in the key of "a/b/c/d/e f g h i" the fourth "/"
(position 7) is still "/" and the fourth " " (position 15) is still " ", while
the third "/" (position 5) is ":" and the third " " (position 13) is "_". -/
theorem only_first_three_replaced_example :
    (deriveKey latin1Table "a/b/c/d/e f g h i".toList)[7]? = some '/'
    ∧ (deriveKey latin1Table "a/b/c/d/e f g h i".toList)[15]? = some ' '
    ∧ (deriveKey latin1Table "a/b/c/d/e f g h i".toList)[5]? = some ':'
    ∧ (deriveKey latin1Table "a/b/c/d/e f g h i".toList)[13]? = some '_' :=
  ⟨(only_first_three_replaced latin1Table "a/b/c/d/e f g h i".toList 7).2.1 (by decide),
    (only_first_three_replaced latin1Table "a/b/c/d/e f g h i".toList 15).2.2 (by decide),
    (only_first_three_replaced latin1Table "a/b/c/d/e f g h i".toList 5).2.1 (by decide),
    (only_first_three_replaced latin1Table "a/b/c/d/e f g h i".toList 13).2.2 (by decide)⟩

/-! ## Lowercase -/

theorem upper_iff (c : Char) : ('A' ≤ c ∧ c ≤ 'Z') ↔ (65 ≤ c.toNat ∧ c.toNat ≤ 90) := by
  rw [char_le_iff_toNat, char_le_iff_toNat]
  exact Iff.rfl

theorem unicodeToLower_upper (caseTable : Char → Char) (c : Char)
    (h : 65 ≤ c.toNat ∧ c.toNat ≤ 90) :
    (unicodeToLower caseTable c).toNat = c.toNat + 32 := by
  have hu := (upper_iff c).mpr h
  have ha : c.toNat ≤ MaxASCII := by
    simp only [MaxASCII]
    omega
  simp only [unicodeToLower, ha, hu, if_true, and_self]
  have : 'a'.toNat - 'A'.toNat = 32 := by decide
  rw [this]
  exact toNat_ofNat_small _ (by omega)

theorem splitLevels_cons (c : Char) (cs l : GoString) (ls : List GoString)
    (h : splitLevels cs = l :: ls) :
    splitLevels (c :: cs) = if c = '/' then [] :: l :: ls else (c :: l) :: ls := by
  simp only [splitLevels, h]

theorem splitLevels_ne_nil (s : GoString) : splitLevels s ≠ [] := by
  induction s with
  | nil => simp [splitLevels]
  | cons c cs ih =>
    cases h : splitLevels cs with
    | nil => exact absurd h ih
    | cons l ls =>
      rw [splitLevels_cons c cs l ls h]
      by_cases hc : c = '/' <;> simp [hc]

theorem splitLevels_no_sep (s : GoString) (h : '/' ∉ s) : splitLevels s = [s] := by
  induction s with
  | nil => rfl
  | cons c cs ih =>
    have hc : c ≠ '/' := fun e => h (by simp [e])
    have hcs : '/' ∉ cs := fun e => h (List.mem_cons_of_mem _ e)
    rw [splitLevels_cons c cs cs [] (ih hcs), if_neg hc]

theorem splitLevels_append (a b : GoString) (h : '/' ∉ a) :
    splitLevels (a ++ '/' :: b) = a :: splitLevels b := by
  induction a with
  | nil =>
    cases hb : splitLevels b with
    | nil => exact absurd hb (splitLevels_ne_nil b)
    | cons l ls =>
      show splitLevels ('/' :: b) = _
      rw [splitLevels_cons '/' b l ls hb, if_pos rfl]
  | cons c cs ih =>
    have hc : c ≠ '/' := fun e => h (by simp [e])
    have hcs : '/' ∉ cs := fun e => h (List.mem_cons_of_mem _ e)
    show splitLevels (c :: (cs ++ '/' :: b)) = _
    rw [splitLevels_cons c _ cs (splitLevels b) (ih hcs), if_neg hc]

theorem subscribedForm_split (d t : GoString) (hd : '/' ∉ d) (ht : '/' ∉ t) :
    splitLevels ("openchirp/device/".toList ++ d ++ '/' :: t) =
      ["openchirp".toList, "device".toList, d, t] := by
  have e : "openchirp/device/".toList ++ d ++ '/' :: t =
      "openchirp".toList ++ '/' :: ("device".toList ++ '/' :: (d ++ '/' :: t)) := by
    simp
  rw [e, splitLevels_append _ _ (by decide), splitLevels_append _ _ (by decide),
    splitLevels_append _ _ hd, splitLevels_no_sep _ ht]

theorem subscribedForm_matches (topic : GoString) (h : SubscribedForm topic) :
    topicMatches subscriptionFilter topic = true := by
  obtain ⟨d, t, hd, ht, rfl⟩ := h
  have hf : splitLevels subscriptionFilter =
      ["openchirp".toList, "device".toList, "+".toList, "+".toList] := by decide
  rw [topicMatches, hf, subscribedForm_split d t hd ht]
  simp [matchLevels]

theorem splitLevels_spec (s : GoString) :
    ∃ l ls, splitLevels s = l :: ls ∧ '/' ∉ l ∧ (ls = [] → s = l) ∧
      (ls ≠ [] → ∃ rest, s = l ++ '/' :: rest ∧ splitLevels rest = ls) := by
  induction s with
  | nil => exact ⟨[], [], rfl, by simp, fun _ => rfl, fun h => absurd rfl h⟩
  | cons c cs ih =>
    obtain ⟨l, ls, hsplit, hl, hlast, hmore⟩ := ih
    by_cases hc : c = '/'
    · subst hc
      refine ⟨[], l :: ls, ?_, by simp, ?_, ?_⟩
      · rw [splitLevels_cons '/' cs l ls hsplit, if_pos rfl]
      · intro h
        simp at h
      · intro _
        exact ⟨cs, rfl, hsplit⟩
    · refine ⟨c :: l, ls, ?_, ?_, ?_, ?_⟩
      · rw [splitLevels_cons c cs l ls hsplit, if_neg hc]
      · intro e
        rcases List.mem_cons.mp e with e | e
        · exact hc e.symm
        · exact hl e
      · intro h
        rw [hlast h]
      · intro h
        obtain ⟨rest, hrest, hsp⟩ := hmore h
        exact ⟨rest, by rw [hrest]; rfl, hsp⟩

theorem matchLevels_subscription (ls : List GoString)
    (h : matchLevels ["openchirp".toList, "device".toList, "+".toList, "+".toList] ls = true) :
    ∃ d t, ls = ["openchirp".toList, "device".toList, d, t] := by
  rcases ls with _ | ⟨a, _ | ⟨b, _ | ⟨c, _ | ⟨d, _ | ⟨e, r⟩⟩⟩⟩⟩
  · simp [matchLevels] at h
  · simp [matchLevels] at h
  · simp [matchLevels] at h
  · simp [matchLevels] at h
  · simp only [matchLevels] at h
    have h1 : ¬ "openchirp".toList = "#".toList := by decide
    have h2 : ¬ "openchirp".toList = "+".toList := by decide
    have h3 : ¬ "device".toList = "#".toList := by decide
    have h4 : ¬ "device".toList = "+".toList := by decide
    rw [if_neg h1] at h
    by_cases ha : "openchirp".toList = a
    · rw [if_pos (Or.inr ha), if_neg h3] at h
      by_cases hb : "device".toList = b
      · exact ⟨c, d, by rw [← ha, ← hb]⟩
      · rw [if_neg (by rintro (e | e); exact h4 e; exact hb e)] at h
        exact absurd h (by simp)
    · rw [if_neg (by rintro (e | e); exact h2 e; exact ha e)] at h
      exact absurd h (by simp)
  · simp only [matchLevels] at h
    have h1 : ¬ "openchirp".toList = "#".toList := by decide
    have h3 : ¬ "device".toList = "#".toList := by decide
    have h5 : ¬ "+".toList = "#".toList := by decide
    rw [if_neg h1] at h
    split_ifs at h
    simp_all

theorem matches_subscribedForm (topic : GoString)
    (h : topicMatches subscriptionFilter topic = true) : SubscribedForm topic := by
  have hf : splitLevels subscriptionFilter =
      ["openchirp".toList, "device".toList, "+".toList, "+".toList] := by decide
  rw [topicMatches, hf] at h
  obtain ⟨d, t, hs⟩ := matchLevels_subscription _ h
  obtain ⟨l1, ls1, h1, _, _, m1⟩ := splitLevels_spec topic
  rw [hs] at h1
  obtain ⟨e1, e1s⟩ := List.cons.inj h1
  subst e1 e1s
  obtain ⟨r1, hr1, hsp1⟩ := m1 (by simp)
  obtain ⟨l2, ls2, h2, _, _, m2⟩ := splitLevels_spec r1
  rw [hsp1] at h2
  obtain ⟨e2, e2s⟩ := List.cons.inj h2
  subst e2 e2s
  obtain ⟨r2, hr2, hsp2⟩ := m2 (by simp)
  obtain ⟨l3, ls3, h3, hd, _, m3⟩ := splitLevels_spec r2
  rw [hsp2] at h3
  obtain ⟨e3, e3s⟩ := List.cons.inj h3
  subst e3 e3s
  obtain ⟨r3, hr3, hsp3⟩ := m3 (by simp)
  obtain ⟨l4, ls4, h4, ht, last4, _⟩ := splitLevels_spec r3
  rw [hsp3] at h4
  obtain ⟨e4, e4s⟩ := List.cons.inj h4
  subst e4 e4s
  refine ⟨d, t, hd, ht, ?_⟩
  rw [hr1, hr2, hr3, last4 rfl]
  simp

/-- A topic is delivered to the subscription exactly when it has the form
"openchirp/device/" ++ d ++ "/" ++ t with no "/" inside `d` or `t`. -/
theorem topicMatches_iff_subscribedForm (topic : GoString) :
    topicMatches subscriptionFilter topic = true ↔ SubscribedForm topic :=
  ⟨matches_subscribedForm topic, subscribedForm_matches topic⟩

theorem replaceLeftmost_not_mem_of_count_le (a b : Char) (hab : a ≠ b) (n : Nat)
    (s : GoString) (h : s.count a ≤ n) : a ∉ replaceLeftmost a b n s := by
  induction s generalizing n with
  | nil => simp [replaceLeftmost_nil]
  | cons c cs ih =>
    by_cases hc : c = a
    · subst hc
      have hcount : cs.count c + 1 ≤ n := by simpa [List.count_cons] using h
      obtain ⟨m, rfl⟩ : ∃ m, n = m + 1 := ⟨n - 1, by omega⟩
      simp only [replaceLeftmost, if_true]
      intro e
      rcases List.mem_cons.mp e with e | e
      · exact hab e
      · exact ih m (by omega) e
    · have hca : (c == a) = false := by simpa using hc
      have hcount : cs.count a ≤ n := by simpa [List.count_cons, hca] using h
      cases n with
      | zero =>
        have hz : (c :: cs).count a = 0 := by omega
        simpa [replaceLeftmost] using List.count_eq_zero.mp hz
      | succ m =>
        simp only [replaceLeftmost, if_neg hc]
        intro e
        rcases List.mem_cons.mp e with e | e
        · exact hc e.symm
        · exact ih (m + 1) hcount e

theorem mem_replaceLeftmost (a b x : Char) (n : Nat) (s : GoString)
    (h : x ∈ replaceLeftmost a b n s) : x ∈ s ∨ x = b := by
  induction s generalizing n with
  | nil => simp [replaceLeftmost_nil] at h
  | cons c cs ih =>
    cases n with
    | zero => exact Or.inl h
    | succ m =>
      by_cases hc : c = a
      · simp only [replaceLeftmost, hc, if_true] at h
        rcases List.mem_cons.mp h with e | e
        · exact Or.inr e
        · rcases ih m e with e | e
          · exact Or.inl (List.mem_cons_of_mem _ e)
          · exact Or.inr e
      · simp only [replaceLeftmost, if_neg hc] at h
        rcases List.mem_cons.mp h with e | e
        · exact Or.inl (by simp [e])
        · rcases ih (m + 1) e with e | e
          · exact Or.inl (List.mem_cons_of_mem _ e)
          · exact Or.inr e

theorem replaceLeftmost_append_of_not_mem (a b : Char) (n : Nat) (pre s : GoString)
    (h : a ∉ pre) : replaceLeftmost a b n (pre ++ s) = pre ++ replaceLeftmost a b n s := by
  induction pre with
  | nil => rfl
  | cons c cs ih =>
    have hc : c ≠ a := fun e => h (by simp [e])
    have hcs : a ∉ cs := fun e => h (List.mem_cons_of_mem _ e)
    cases n with
    | zero => simp [replaceLeftmost]
    | succ m =>
      show replaceLeftmost a b (m + 1) (c :: (cs ++ s)) = _
      simp only [replaceLeftmost, if_neg hc, ih hcs]
      rfl

theorem unicodeToLower_eq_slash (caseTable : Char → Char)
    (htbl : ∀ c, MaxASCII < c.toNat → caseTable c ≠ '/') (c : Char)
    (h : unicodeToLower caseTable c = '/') : c = '/' := by
  by_cases ha : c.toNat ≤ MaxASCII
  · by_cases hu : 'A' ≤ c ∧ c ≤ 'Z'
    · have h1 := unicodeToLower_upper caseTable c ((upper_iff c).mp hu)
      have h2 := (upper_iff c).mp hu
      rw [h] at h1
      have : ('/' : Char).toNat = 47 := by decide
      omega
    · rw [unicodeToLower_fixed caseTable c ha hu] at h
      exact h
  · have hc : unicodeToLower caseTable c = caseTable c := by
      simp [unicodeToLower, ha]
    rw [hc] at h
    exact absurd h (htbl c (by omega))

theorem subscribedForm_key (caseTable : Char → Char) (d t : GoString) (hd : '/' ∉ d) :
    deriveKey caseTable ("openchirp/device/".toList ++ d ++ '/' :: t) =
      "openchirp:device:".toList ++
        lowerAll caseTable (replaceLeftmost ' ' '_' 3 (d ++ ':' :: t)) := by
  have e : "openchirp/device/".toList ++ d ++ '/' :: t =
      "openchirp".toList ++ '/' :: ("device".toList ++ '/' :: (d ++ '/' :: t)) := by
    simp
  have e2 : "openchirp".toList ++ ':' :: ("device".toList ++ ':' :: (d ++ ':' :: t)) =
      "openchirp:device:".toList ++ (d ++ ':' :: t) := by
    simp
  rw [deriveKey_eq, e, replaceLeftmost_split '/' ':' 2 _ _ (by decide),
    replaceLeftmost_split '/' ':' 1 _ _ (by decide), replaceLeftmost_split '/' ':' 0 _ _ hd,
    replaceLeftmost_zero, e2, replaceLeftmost_append_of_not_mem ' ' '_' 3 _ _ (by decide)]
  show List.map _ _ = _
  rw [List.map_append]
  rfl

/-- C9: for every topic delivered to the subscription "openchirp/device/+/+",
that is every topic "openchirp/device/" ++ d ++ "/" ++ t with no "/" in `d` or
`t`, the topic has exactly three "/", and, provided the case table sends no
rune to "/", the derived key contains no "/" and begins with
"openchirp:device:". -/
theorem subscribed_key_has_no_separator (caseTable : Char → Char) (topic : GoString)
    (hmatch : topicMatches subscriptionFilter topic = true)
    (htbl : ∀ c, MaxASCII < c.toNat → caseTable c ≠ '/') :
    SubscribedForm topic
    ∧ topic.count '/' = 3
    ∧ '/' ∉ deriveKey caseTable topic
    ∧ "openchirp:device:".toList <+: deriveKey caseTable topic := by
  have hform := matches_subscribedForm topic hmatch
  obtain ⟨d, t, hd, ht, rfl⟩ := hform
  have hcount : ("openchirp/device/".toList ++ d ++ '/' :: t).count '/' = 3 := by
    rw [List.count_append, List.count_append, List.count_cons,
      List.count_eq_zero.mpr hd, List.count_eq_zero.mpr ht]
    rfl
  refine ⟨⟨d, t, hd, ht, rfl⟩, hcount, ?_, ?_⟩
  · intro hmem
    rw [deriveKey_eq, lowerAll] at hmem
    obtain ⟨x, hx, hxe⟩ := List.mem_map.mp hmem
    have hx2 := unicodeToLower_eq_slash caseTable htbl x hxe
    subst hx2
    rcases mem_replaceLeftmost ' ' '_' '/' 3 _ hx with h1 | h1
    · exact replaceLeftmost_not_mem_of_count_le '/' ':' (by decide) 3 _ (by omega) h1
    · exact absurd h1 (by decide)
  · rw [subscribedForm_key caseTable d t hd]
    exact List.prefix_append _ _

theorem latin1Table_ne_slash (c : Char) (h : MaxASCII < c.toNat) : latin1Table c ≠ '/' := by
  simp only [MaxASCII] at h
  intro e
  have e2 : (latin1Table c).toNat = 47 := by rw [e]; decide
  by_cases hr : 0xC0 ≤ c.toNat ∧ c.toNat ≤ 0xDE ∧ c.toNat ≠ 0xD7
  · have h1 : (latin1Table c).toNat = c.toNat + 32 := by
      simp only [latin1Table, hr, if_true, and_self, ne_eq, not_false_eq_true]
      exact toNat_ofNat_small _ (by omega)
    omega
  · have h1 : latin1Table c = c := by rw [latin1Table, if_neg hr]
    rw [h1] at e2
    omega

/-- C9 at a concrete input: the Latin-1 excerpt of the case table and the topic
"openchirp/device/Ébc 123/Battery Level". -/
theorem subscribed_key_has_no_separator_example :
    topicMatches subscriptionFilter "openchirp/device/Ébc 123/Battery Level".toList = true
    ∧ (∀ c, MaxASCII < c.toNat → latin1Table c ≠ '/')
    ∧ '/' ∉ deriveKey latin1Table "openchirp/device/Ébc 123/Battery Level".toList
    ∧ "openchirp:device:".toList <+:
        deriveKey latin1Table "openchirp/device/Ébc 123/Battery Level".toList :=
  ⟨by decide, latin1Table_ne_slash,
    (subscribed_key_has_no_separator latin1Table
      "openchirp/device/Ébc 123/Battery Level".toList (by decide) latin1Table_ne_slash).2.2⟩

/-- C10: key derivation is not injective on subscribed topics: the delivered
topics "openchirp/device/ABC/Temp" and "openchirp/device/abc/temp" differ and
have the same key, and so do "openchirp/device/a b/x" and
"openchirp/device/a_b/x"; an event for the second topic of a pair replaces the
value stored for the first. -/
theorem key_derivation_not_injective :
    (topicMatches subscriptionFilter "openchirp/device/ABC/Temp".toList = true
      ∧ topicMatches subscriptionFilter "openchirp/device/abc/temp".toList = true
      ∧ "openchirp/device/ABC/Temp".toList ≠ "openchirp/device/abc/temp".toList
      ∧ ∀ caseTable, deriveKey caseTable "openchirp/device/ABC/Temp".toList =
          deriveKey caseTable "openchirp/device/abc/temp".toList)
    ∧ (topicMatches subscriptionFilter "openchirp/device/a b/x".toList = true
      ∧ topicMatches subscriptionFilter "openchirp/device/a_b/x".toList = true
      ∧ "openchirp/device/a b/x".toList ≠ "openchirp/device/a_b/x".toList
      ∧ ∀ caseTable, deriveKey caseTable "openchirp/device/a b/x".toList =
          deriveKey caseTable "openchirp/device/a_b/x".toList)
    ∧ (∀ caseTable w t1 t2 a b,
        (handler caseTable
          (handler caseTable w t1 none "openchirp/device/ABC/Temp".toList a)
          t2 none "openchirp/device/abc/temp".toList b).store
          (deriveKey caseTable "openchirp/device/ABC/Temp".toList) =
        some ⟨b, t2 + lastValueExpiration⟩)
    ∧ (∀ caseTable w t1 t2 a b,
        (handler caseTable
          (handler caseTable w t1 none "openchirp/device/a b/x".toList a)
          t2 none "openchirp/device/a_b/x".toList b).store
          (deriveKey caseTable "openchirp/device/a b/x".toList) =
        some ⟨b, t2 + lastValueExpiration⟩) := by
  have hcase : ∀ caseTable : Char → Char,
      deriveKey caseTable "openchirp/device/ABC/Temp".toList =
        deriveKey caseTable "openchirp/device/abc/temp".toList := by
    intro caseTable
    have h1 : deriveKey caseTable "openchirp/device/ABC/Temp".toList =
        "openchirp:device:abc:temp".toList := rfl
    have h2 : deriveKey caseTable "openchirp/device/abc/temp".toList =
        "openchirp:device:abc:temp".toList := rfl
    rw [h1, h2]
  have hspace : ∀ caseTable : Char → Char,
      deriveKey caseTable "openchirp/device/a b/x".toList =
        deriveKey caseTable "openchirp/device/a_b/x".toList := by
    intro caseTable
    have h1 : deriveKey caseTable "openchirp/device/a b/x".toList =
        "openchirp:device:a_b:x".toList := rfl
    have h2 : deriveKey caseTable "openchirp/device/a_b/x".toList =
        "openchirp:device:a_b:x".toList := rfl
    rw [h1, h2]
  refine ⟨⟨by decide, by decide, by decide, hcase⟩,
    ⟨by decide, by decide, by decide, hspace⟩, ?_, ?_⟩
  · intro caseTable w t1 t2 a b
    exact handler_store_at caseTable _ t2 _ b _ (hcase caseTable)
  · intro caseTable w t1 t2 a b
    exact handler_store_at caseTable _ t2 _ b _ (hspace caseTable)

end OpenChirpPubsub
